import Mathlib

/-!
# The token tables of `go/build/syslist.go`

The source file declares two string constants, `goosList` and `goarchList`,
each a run of identifiers separated by single spaces.  This development
embeds the two constants verbatim, reads them as their space-separated
fields, and settles the properties of the tables and of the membership
queries the specification builds on them.
-/

namespace Syslist

/-! ## The constants of the source file -/

/-- The constant `goosList` of `syslist.go`, line 7, character for character. -/
def goosList : String :=
  "android darwin dragonfly freebsd linux nacl netbsd openbsd plan9 solaris windows "

/-- The constant `goarchList` of `syslist.go`, line 8, character for character. -/
def goarchList : String :=
  "386 amd64 amd64p32 arm armbe arm64 arm64be alpha m68k ppc64 ppc64le mips mipsle mips64 mips64le mips64p32 mips64p32le mipso32 mipsn32 mipsn64 mipso64 ppc s390 s390x sparc sparc64 "

/-! ## Reading a constant as a list of tokens -/

/-- White space in the sense of Go's `unicode.IsSpace`: the Latin-1 spaces
`\t \n \v \f \r`, U+0020, U+0085, U+00A0 and the Unicode `White_Space`
code points above Latin-1. -/
def isSpace (c : Char) : Bool :=
  let n := c.toNat
  (9 ≤ n && n ≤ 13) || n == 0x20 || n == 0x85 || n == 0xA0 || n == 0x1680 ||
  (0x2000 ≤ n && n ≤ 0x200a) || n == 0x2028 || n == 0x2029 || n == 0x202f ||
  n == 0x205f || n == 0x3000

/-- Scan of the characters of a string: `cur` holds the characters of the
field being read, most recent first.  A separator closes a non-empty field
and is itself dropped; the end of the input closes a non-empty field. -/
def fieldsAux (f : Char → Bool) : List Char → List Char → List String
  | [], cur => if cur.isEmpty then [] else [String.mk cur.reverse]
  | c :: cs, cur =>
    if f c then
      if cur.isEmpty then fieldsAux f cs []
      else String.mk cur.reverse :: fieldsAux f cs []
    else fieldsAux f cs (c :: cur)

/-- The maximal non-empty runs of characters of `s` that do not satisfy `f`,
in order (Go's `strings.FieldsFunc`). -/
def fieldsFunc (f : Char → Bool) (s : String) : List String :=
  fieldsAux f s.data []

/-- The space-separated fields of `s`: the maximal non-empty runs of
characters other than U+0020, in order. -/
def fields (s : String) : List String :=
  fieldsFunc (fun c => c == ' ') s

/-- Each token followed by one space character, concatenated in order. -/
def unfields : List String → String
  | [] => ""
  | t :: ts => t ++ " " ++ unfields ts

/-! ## String helpers -/

/-- Whether the characters `p` open the characters `s` (Go's `strings.HasPrefix`). -/
def startsWith : List Char → List Char → Bool
  | [], _ => true
  | _ :: _, [] => false
  | a :: p, b :: s => a == b && startsWith p s

/-- Whether `sub` occurs in `s` as a contiguous block (Go's `strings.Contains`). -/
def containsChars (sub : List Char) : List Char → Bool
  | [] => sub.isEmpty
  | c :: cs => startsWith sub (c :: cs) || containsChars sub cs

/-- Whether the string `sub` is a substring of the string `s`. -/
def isSubstr (sub s : String) : Bool :=
  containsChars sub.data s.data

/-- The upper-cased form of a string, character by character: `a..z` go to
`A..Z` and every other character stays (Go's `strings.ToUpper` on ASCII). -/
def toUpper (s : String) : String :=
  String.mk (s.data.map Char.toUpper)

/-- A lowercase ASCII letter `a..z` (code points 97 to 122). -/
def isLowerLetter (c : Char) : Bool :=
  97 ≤ c.toNat && c.toNat ≤ 122

/-- An uppercase ASCII letter `A..Z` (code points 65 to 90). -/
def isUpperLetter (c : Char) : Bool :=
  65 ≤ c.toNat && c.toNat ≤ 90

/-- A digit `0..9` (code points 48 to 57). -/
def isDigit (c : Char) : Bool :=
  48 ≤ c.toNat && c.toNat ≤ 57

/-- A lowercase ASCII letter `a..z` or a digit `0..9`. -/
def isLowerAlnum (c : Char) : Bool :=
  isLowerLetter c || isDigit c

/-- The UTF-8 bytes of a string, as numbers. -/
def bytes (s : String) : List Nat :=
  s.data.flatMap fun c => (String.utf8EncodeChar c).map UInt8.toNat

/-- Lexicographic order on byte sequences. -/
def bytesLt : List Nat → List Nat → Bool
  | [], [] => false
  | [], _ :: _ => true
  | _ :: _, [] => false
  | a :: as, b :: bs => a < b || (a == b && bytesLt as bs)

/-- Byte-wise lexicographic comparison of two strings (Go's `<` on strings). -/
def strLt (a b : String) : Bool :=
  bytesLt (bytes a) (bytes b)

/-! ## The membership queries of the specification -/

/-- Modelled from the spec: `IsKnownOS` is not in the source file; the spec
(section 4.1) defines it as "returns true iff `token` is present in the OS
Set (case-sensitive exact match ...)", the OS Set being the fields of
`goosList`. -/
def IsKnownOS (token : String) : Bool :=
  (fields goosList).contains token

/-- Modelled from the spec: `IsKnownArch` is not in the source file; the spec
(section 4.1) gives it "the same contract against the Architecture Set", the
fields of `goarchList`. -/
def IsKnownArch (token : String) : Bool :=
  (fields goarchList).contains token

/-- The characters before and after the first underscore, or `none` when
there is no underscore. -/
def cutUnderscore : List Char → Option (List Char × List Char)
  | [] => none
  | c :: cs =>
    if c = '_' then some ([], cs)
    else (cutUnderscore cs).map fun p => (c :: p.1, p.2)

/-- Modelled from the spec: `SplitPlatformTag` is not in the source file; the
spec (section 4.1) says "split on the first underscore; succeeds (`ok = true`)
only if both halves are non-empty and each independently satisfies
`IsKnownOS` / `IsKnownArch` respectively", and its examples give
`("", "", false)` for every rejected tag, a tag with no underscore included. -/
def SplitPlatformTag (tag : String) : String × String × Bool :=
  match cutUnderscore tag.data with
  | none => ("", "", false)
  | some (o, a) =>
    if !o.isEmpty && !a.isEmpty && IsKnownOS (String.mk o) && IsKnownArch (String.mk a)
    then (String.mk o, String.mk a, true)
    else ("", "", false)

/-! ## Binary search over the fields in source order -/

/-- The loop of Go's `sort.Search` on the half-open range `[i, j)`: the
midpoint `h` moves `i` to `h + 1` when `f h` is false and `j` to `h`
otherwise.  `none` when the fuel runs out with the range still open. -/
def searchLoop (f : Nat → Bool) : Nat → Nat → Nat → Option Nat
  | 0, i, j => if i < j then none else some i
  | fuel + 1, i, j =>
    if i < j then
      let h := (i + j) / 2
      if f h then searchLoop f fuel i h else searchLoop f fuel (h + 1) j
    else some i

/-- Modelled from the spec: the "sorted array with binary search" of the
design notes (section 9) is not in the source file.  This is Go's
`sort.SearchStrings` (smallest index whose entry is not below `x`) run over
the list as it stands, followed by the equality test at the index found. -/
def binarySearch (l : List String) (x : String) : Option Bool :=
  (searchLoop (fun h => !strLt (l.getD h "") x) l.length 0 l.length).map
    fun i => decide (i < l.length) && l.getD i "" == x

/-- Whether each string of the list is below its successor in byte order. -/
def isAscending : List String → Bool
  | a :: b :: rest => strLt a b && isAscending (b :: rest)
  | _ => true

/-- Insertion of a string before the first entry that is not below it. -/
def insertSorted (x : String) : List String → List String
  | [] => [x]
  | y :: ys => if strLt y x then y :: insertSorted x ys else x :: y :: ys

/-- The strings of a list in ascending byte order (insertion sort). -/
def sortStrings : List String → List String
  | [] => []
  | x :: xs => insertSorted x (sortStrings xs)

/-! ## Evaluation of the two token lists -/

theorem fields_goosList :
    fields goosList =
      ["android", "darwin", "dragonfly", "freebsd", "linux", "nacl", "netbsd",
       "openbsd", "plan9", "solaris", "windows"] := by
  decide

theorem fields_goarchList :
    fields goarchList =
      ["386", "amd64", "amd64p32", "arm", "armbe", "arm64", "arm64be", "alpha",
       "m68k", "ppc64", "ppc64le", "mips", "mipsle", "mips64", "mips64le",
       "mips64p32", "mips64p32le", "mipso32", "mipsn32", "mipsn64", "mipso64",
       "ppc", "s390", "s390x", "sparc", "sparc64"] := by
  decide

/-! ## Shape of an accepted tag -/

theorem cutUnderscore_eq_some {l o a : List Char} (h : cutUnderscore l = some (o, a)) :
    l = o ++ '_' :: a ∧ '_' ∉ o := by
  induction l generalizing o a with
  | nil => simp [cutUnderscore] at h
  | cons c cs ih =>
    by_cases hc : c = '_'
    · subst hc
      simp only [cutUnderscore, if_true, Option.some.injEq, Prod.mk.injEq] at h
      obtain ⟨ho, ha⟩ := h
      subst ho ha
      simp
    · cases hcut : cutUnderscore cs with
      | none => simp [cutUnderscore, hc, hcut] at h
      | some p =>
        obtain ⟨o1, a1⟩ := p
        simp only [cutUnderscore, if_neg hc, hcut, Option.map_some', Option.some.injEq,
          Prod.mk.injEq] at h
        obtain ⟨ho, ha⟩ := h
        obtain ⟨hl, hno⟩ := ih hcut
        subst ho ha
        refine ⟨by rw [hl]; rfl, ?_⟩
        intro hmem
        rcases List.mem_cons.mp hmem with h1 | h1
        · exact hc h1.symm
        · exact hno h1

theorem SplitPlatformTag_of_cut {tag : String} {o a : List Char}
    (hcut : cutUnderscore tag.data = some (o, a)) :
    SplitPlatformTag tag =
      if (!o.isEmpty && !a.isEmpty && IsKnownOS (String.mk o) &&
          IsKnownArch (String.mk a)) = true
      then (String.mk o, String.mk a, true) else ("", "", false) := by
  unfold SplitPlatformTag
  rw [hcut]

theorem SplitPlatformTag_of_no_cut {tag : String} (hcut : cutUnderscore tag.data = none) :
    SplitPlatformTag tag = ("", "", false) := by
  unfold SplitPlatformTag
  rw [hcut]

theorem SplitPlatformTag_rejects (tag : String) (h : (SplitPlatformTag tag).2.2 = false) :
    SplitPlatformTag tag = ("", "", false) := by
  cases hcut : cutUnderscore tag.data with
  | none => exact SplitPlatformTag_of_no_cut hcut
  | some p =>
    obtain ⟨o, a⟩ := p
    rw [SplitPlatformTag_of_cut hcut] at h ⊢
    by_cases hc : (!o.isEmpty && !a.isEmpty && IsKnownOS (String.mk o) &&
        IsKnownArch (String.mk a)) = true
    · rw [if_pos hc] at h
      exact absurd h (Bool.noConfusion)
    · rw [if_neg hc]

theorem SplitPlatformTag_accepts (tag : String) (h : (SplitPlatformTag tag).2.2 = true) :
    ∃ os arch : String, SplitPlatformTag tag = (os, arch, true) ∧
      os ≠ "" ∧ arch ≠ "" ∧ IsKnownOS os = true ∧ IsKnownArch arch = true ∧
      tag = os ++ "_" ++ arch := by
  cases hcut : cutUnderscore tag.data with
  | none =>
    rw [SplitPlatformTag_of_no_cut hcut] at h
    exact absurd h (by decide)
  | some p =>
    obtain ⟨o, a⟩ := p
    rw [SplitPlatformTag_of_cut hcut] at h ⊢
    by_cases hc : (!o.isEmpty && !a.isEmpty && IsKnownOS (String.mk o) &&
        IsKnownArch (String.mk a)) = true
    · rw [if_pos hc]
      simp only [Bool.and_eq_true, Bool.not_eq_true', List.isEmpty_eq_false] at hc
      obtain ⟨⟨⟨ho, ha⟩, hos⟩, harch⟩ := hc
      refine ⟨String.mk o, String.mk a, rfl, ?_, ?_, hos, harch, ?_⟩
      · intro he
        exact ho (congrArg String.data he)
      · intro he
        exact ha (congrArg String.data he)
      · apply String.ext
        simp [(cutUnderscore_eq_some hcut).1]
    · rw [if_neg hc] at h
      exact absurd h (by decide)

/-! ## Binary search: termination and soundness -/

theorem searchLoop_terminates (f : Nat → Bool) (fuel i j : Nat) (h : j - i ≤ fuel) :
    ∃ r, searchLoop f fuel i j = some r := by
  induction fuel generalizing i j with
  | zero =>
    refine ⟨i, ?_⟩
    have hij : ¬ i < j := by omega
    simp [searchLoop, hij]
  | succ n ih =>
    by_cases hij : i < j
    · by_cases hf : f ((i + j) / 2) = true
      · obtain ⟨r, hr⟩ := ih i ((i + j) / 2) (by omega)
        exact ⟨r, by simp [searchLoop, hij, hf, hr]⟩
      · obtain ⟨r, hr⟩ := ih ((i + j) / 2 + 1) j (by omega)
        exact ⟨r, by simp [searchLoop, hij, hf, hr]⟩
    · exact ⟨i, by simp [searchLoop, hij]⟩

theorem binarySearch_terminates (l : List String) (x : String) :
    ∃ b, binarySearch l x = some b := by
  obtain ⟨r, hr⟩ := searchLoop_terminates (fun h => !strLt (l.getD h "") x)
    l.length 0 l.length (by omega)
  refine ⟨decide (r < l.length) && l.getD r "" == x, ?_⟩
  simp only [binarySearch, hr, Option.map_some']

theorem binarySearch_sound (l : List String) (x : String)
    (h : binarySearch l x = some true) : x ∈ l := by
  obtain ⟨r, hr⟩ := searchLoop_terminates (fun h => !strLt (l.getD h "") x)
    l.length 0 l.length (by omega)
  simp only [binarySearch, hr, Option.map_some', Option.some.injEq, Bool.and_eq_true,
    decide_eq_true_eq, beq_iff_eq] at h
  obtain ⟨hlt, hx⟩ := h
  rw [List.getD_eq_getElem l "" hlt] at hx
  rw [← hx]
  exact List.getElem_mem hlt

/-! ## The claims -/

/-- C1: the example identifiers of the spec are recognised: "linux",
"windows" and "darwin" are fields of `goosList`, "amd64", "arm64" and "386"
are fields of `goarchList`, `IsKnownOS` / `IsKnownArch` return true on them,
and the tag "linux_amd64" splits into a known OS half and a known
architecture half. -/
theorem example_identifiers_recognised :
    ("linux" ∈ fields goosList ∧ "windows" ∈ fields goosList ∧
      "darwin" ∈ fields goosList) ∧
    ("amd64" ∈ fields goarchList ∧ "arm64" ∈ fields goarchList ∧
      "386" ∈ fields goarchList) ∧
    (IsKnownOS "linux" = true ∧ IsKnownOS "windows" = true ∧
      IsKnownOS "darwin" = true) ∧
    (IsKnownArch "amd64" = true ∧ IsKnownArch "arm64" = true ∧
      IsKnownArch "386" = true) ∧
    (∀ t, IsKnownOS t = true ↔ t ∈ fields goosList) ∧
    (∀ t, IsKnownArch t = true ↔ t ∈ fields goarchList) ∧
    cutUnderscore "linux_amd64".data = some ("linux".data, "amd64".data) ∧
    SplitPlatformTag "linux_amd64" = ("linux", "amd64", true) := by
  refine ⟨by decide!, by decide!, by decide!, by decide!, ?_, ?_, by decide!, by decide!⟩
  · intro t
    simp [IsKnownOS]
  · intro t
    simp [IsKnownArch]

/-- C2: `goosList` has exactly 11 space-separated non-empty fields and
`goarchList` exactly 26. -/
theorem token_counts :
    (fields goosList).length = 11 ∧ (fields goarchList).length = 26 := by
  constructor <;> decide!

/-- C3: every character of every token of either list is a lowercase ASCII
letter or a digit; hence a string with an uppercase letter is a token of
neither list, and for every token that contains a letter the upper-cased
form is a token of neither list: matching is case-sensitive. -/
theorem tokens_lowercase_canonical :
    (∀ t ∈ fields goosList ++ fields goarchList, ∀ c ∈ t.data, isLowerAlnum c = true) ∧
    (∀ s : String, (∃ c ∈ s.data, isUpperLetter c = true) →
      s ∉ fields goosList ∧ s ∉ fields goarchList) ∧
    (∀ t ∈ fields goosList ++ fields goarchList,
      t.data.any (fun c => isLowerLetter c || isUpperLetter c) = true →
      toUpper t ≠ t ∧ toUpper t ∉ fields goosList ∧ toUpper t ∉ fields goarchList) := by
  have hall : ∀ t ∈ fields goosList ++ fields goarchList, ∀ c ∈ t.data,
      isLowerAlnum c = true := by decide!
  refine ⟨hall, ?_, by decide!⟩
  rintro s ⟨c, hc, hu⟩
  have hno : ∀ t ∈ fields goosList ++ fields goarchList, s ≠ t := by
    intro t ht hst
    subst hst
    have hl := hall s ht c hc
    simp only [isLowerAlnum, isLowerLetter, isDigit, isUpperLetter, Bool.or_eq_true,
      Bool.and_eq_true, decide_eq_true_eq] at hl hu
    omega
  exact ⟨fun h => hno s (List.mem_append_left _ h) rfl,
    fun h => hno s (List.mem_append_right _ h) rfl⟩

theorem tokens_lowercase_canonical_witness :
    "LINUX" ∉ fields goosList ∧ "LINUX" ∉ fields goarchList :=
  tokens_lowercase_canonical.2.1 "LINUX" ⟨'L', by decide, by decide⟩

/-- C4: the two sets are disjoint: no field of `goosList` is a field of
`goarchList`; "amd64" is not a field of `goosList`; and for every OS token
and architecture token the reversed tag is rejected, the architecture not
being a known OS and the OS not being a known architecture. -/
theorem os_arch_disjoint :
    (∀ t ∈ fields goosList, t ∉ fields goarchList) ∧
    "amd64" ∉ fields goosList ∧
    SplitPlatformTag "amd64_linux" = ("", "", false) ∧
    (∀ os ∈ fields goosList, ∀ arch ∈ fields goarchList,
      IsKnownOS arch = false ∧ IsKnownArch os = false ∧
      SplitPlatformTag (arch ++ "_" ++ os) = ("", "", false)) := by
  refine ⟨by decide!, by decide!, by decide!, by decide!⟩

/-- C5: unrecognised strings are rejected by both lists: "amiga" is a field
of neither, "unknown arch" is not a field of `goarchList`; "64", "arm6" and
"win" are substrings of tokens and fields of neither list; and in general a
proper substring of a token of one list that is not itself a token of that
list is a token of neither list. -/
theorem unrecognised_rejected :
    ("amiga" ∉ fields goosList ∧ "amiga" ∉ fields goarchList ∧
      "unknown arch" ∉ fields goarchList) ∧
    (isSubstr "64" "amd64" = true ∧ "64" ∉ fields goosList ∧ "64" ∉ fields goarchList) ∧
    (isSubstr "arm6" "arm64" = true ∧ "arm6" ∉ fields goosList ∧
      "arm6" ∉ fields goarchList) ∧
    (isSubstr "win" "windows" = true ∧ "win" ∉ fields goosList ∧
      "win" ∉ fields goarchList) ∧
    (∀ s t : String, isSubstr s t = true → s ≠ t →
      (t ∈ fields goosList ∧ s ∉ fields goosList ∨
        t ∈ fields goarchList ∧ s ∉ fields goarchList) →
      s ∉ fields goosList ∧ s ∉ fields goarchList) := by
  have h1 : ∀ t ∈ fields goosList, ∀ s ∈ fields goarchList, isSubstr s t = false := by
    decide!
  have h2 : ∀ t ∈ fields goarchList, ∀ s ∈ fields goosList, isSubstr s t = false := by
    decide!
  refine ⟨by decide!, by decide!, by decide!, by decide!, ?_⟩
  intro s t hsub _ h
  rcases h with ⟨ht, hs⟩ | ⟨ht, hs⟩
  · refine ⟨hs, fun hsa => ?_⟩
    rw [h1 t ht s hsa] at hsub
    exact Bool.false_ne_true hsub
  · refine ⟨fun hso => ?_, hs⟩
    rw [h2 t ht s hso] at hsub
    exact Bool.false_ne_true hsub

theorem unrecognised_rejected_witness :
    "win" ∉ fields goosList ∧ "win" ∉ fields goarchList :=
  unrecognised_rejected.2.2.2.2 "win" "windows" (by decide) (by decide)
    (Or.inl ⟨by decide, by decide⟩)

/-- C6: for every OS token and every architecture token, the tag
`os ++ "_" ++ arch` splits at its first underscore into exactly (os, arch),
both halves are non-empty and recognised, and the tag is accepted with
result (os, arch, true); no OS token contains an underscore. -/
theorem split_accepts_every_pair (os arch : String)
    (hos : os ∈ fields goosList) (harch : arch ∈ fields goarchList) :
    '_' ∉ os.data ∧
    cutUnderscore (os ++ "_" ++ arch).data = some (os.data, arch.data) ∧
    os ≠ "" ∧ arch ≠ "" ∧ IsKnownOS os = true ∧ IsKnownArch arch = true ∧
    SplitPlatformTag (os ++ "_" ++ arch) = (os, arch, true) := by
  have key : ∀ o ∈ fields goosList, ∀ a ∈ fields goarchList,
      '_' ∉ o.data ∧
      cutUnderscore (o ++ "_" ++ a).data = some (o.data, a.data) ∧
      o ≠ "" ∧ a ≠ "" ∧ IsKnownOS o = true ∧ IsKnownArch a = true ∧
      SplitPlatformTag (o ++ "_" ++ a) = (o, a, true) := by
    decide!
  exact key os hos arch harch

theorem split_accepts_every_pair_witness :
    '_' ∉ "linux".data ∧
    cutUnderscore ("linux" ++ "_" ++ "amd64").data = some ("linux".data, "amd64".data) ∧
    "linux" ≠ "" ∧ "amd64" ≠ "" ∧ IsKnownOS "linux" = true ∧ IsKnownArch "amd64" = true ∧
    SplitPlatformTag ("linux" ++ "_" ++ "amd64") = ("linux", "amd64", true) :=
  split_accepts_every_pair "linux" "amd64" (by decide) (by decide)

/-- C7: each constant equals the concatenation, in order, of its fields each
followed by one space; neither constant starts with a space, has two
consecutive spaces, or holds a white-space character other than U+0020 (so
splitting at any white space gives the same fields). -/
theorem constants_canonical_form :
    (unfields (fields goosList) = goosList ∧ unfields (fields goarchList) = goarchList) ∧
    (goosList.data.head? ≠ some ' ' ∧ goarchList.data.head? ≠ some ' ') ∧
    (isSubstr "  " goosList = false ∧ isSubstr "  " goarchList = false) ∧
    (∀ c ∈ goosList.data ++ goarchList.data, isSpace c = true → c = ' ') ∧
    (fieldsFunc isSpace goosList = fields goosList ∧
      fieldsFunc isSpace goarchList = fields goarchList) := by
  refine ⟨by decide!, by decide!, by decide!, by decide!, by decide!⟩

/-- C8: the empty string is a field of neither constant although both end
with a space; every token has length at least 1; the tags "_amd64" and
"linux_", and every tag that starts or ends with its underscore, are
rejected; an accepted tag has two non-empty recognised halves. -/
theorem empty_string_not_recognised :
    ("" ∉ fields goosList ∧ "" ∉ fields goarchList) ∧
    (goosList.data.getLast? = some ' ' ∧ goarchList.data.getLast? = some ' ') ∧
    (∀ t ∈ fields goosList ++ fields goarchList, 1 ≤ t.length) ∧
    (IsKnownOS "" = false ∧ IsKnownArch "" = false) ∧
    (SplitPlatformTag "_amd64" = ("", "", false) ∧
      SplitPlatformTag "linux_" = ("", "", false)) ∧
    (∀ x : String, SplitPlatformTag ("_" ++ x) = ("", "", false)) ∧
    (∀ x : String, SplitPlatformTag (x ++ "_") = ("", "", false)) ∧
    (∀ tag os arch : String, SplitPlatformTag tag = (os, arch, true) →
      os ≠ "" ∧ arch ≠ "" ∧ IsKnownOS os = true ∧ IsKnownArch arch = true ∧
      tag = os ++ "_" ++ arch) := by
  have hund : ∀ t ∈ fields goarchList, '_' ∉ t.data := by decide!
  refine ⟨by decide!, by decide!, by decide!, by decide!, by decide!, ?_, ?_, ?_⟩
  · intro x
    apply SplitPlatformTag_rejects
    simp [SplitPlatformTag, cutUnderscore]
  · intro x
    apply SplitPlatformTag_rejects
    by_contra hne
    obtain ⟨os, arch, _, _, harch0, _, harch, htag⟩ :=
      SplitPlatformTag_accepts (x ++ "_") (by simpa using hne)
    have hmem : arch ∈ fields goarchList := by simpa [IsKnownArch] using harch
    have hdata : x.data ++ ['_'] = os.data ++ '_' :: arch.data := by
      have := congrArg String.data htag
      simpa using this
    have hrev := congrArg List.reverse hdata
    simp only [List.reverse_append, List.reverse_cons, List.reverse_nil, List.nil_append,
      List.singleton_append, List.append_assoc] at hrev
    cases hr : arch.data.reverse with
    | nil =>
      apply harch0
      apply String.ext
      simpa using hr
    | cons c r =>
      rw [hr] at hrev
      simp only [List.cons_append, List.cons.injEq] at hrev
      have hc : '_' ∈ arch.data.reverse := by
        rw [hr, ← hrev.1]
        exact List.mem_cons_self _ _
      exact hund arch hmem (List.mem_reverse.mp hc)
  · intro tag os arch h
    obtain ⟨os1, arch1, heq, h1, h2, h3, h4, h5⟩ :=
      SplitPlatformTag_accepts tag (by rw [h])
    rw [h] at heq
    simp only [Prod.mk.injEq, and_true] at heq
    obtain ⟨ho, ha⟩ := heq
    subst ho ha
    exact ⟨h1, h2, h3, h4, h5⟩

theorem empty_string_not_recognised_witness :
    "linux" ≠ "" ∧ "amd64" ≠ "" ∧ IsKnownOS "linux" = true ∧ IsKnownArch "amd64" = true ∧
      "linux_amd64" = "linux" ++ "_" ++ "amd64" :=
  empty_string_not_recognised.2.2.2.2.2.2.2 "linux_amd64" "linux" "amd64" (by decide)

/-- C9: neither list has a duplicate token: the 11 fields of `goosList` are
pairwise distinct and so are the 26 fields of `goarchList`, so each set has
as many elements as its constant has fields. -/
theorem tokens_pairwise_distinct :
    (fields goosList).Nodup ∧ (fields goarchList).Nodup ∧
    (fields goosList).toFinset.card = (fields goosList).length ∧
    (fields goarchList).toFinset.card = (fields goarchList).length ∧
    (fields goosList).toFinset.card = 11 ∧ (fields goarchList).toFinset.card = 26 := by
  have h1 : (fields goosList).Nodup := by decide!
  have h2 : (fields goarchList).Nodup := by decide!
  have l1 : (fields goosList).length = 11 := by decide!
  have l2 : (fields goarchList).length = 26 := by decide!
  refine ⟨h1, h2, List.toFinset_card_of_nodup h1, List.toFinset_card_of_nodup h2, ?_, ?_⟩
  · rw [List.toFinset_card_of_nodup h1, l1]
  · rw [List.toFinset_card_of_nodup h2, l2]

/-- C10: the fields of `goosList` stand in strictly ascending byte order, those
of `goarchList` do not ("armbe" stands right before "arm64" and is greater);
binary search over the fields in source order decides membership in
`goosList`, misses the token "alpha" of `goarchList`, and finds every token
of `goarchList` once the fields are sorted. -/
theorem source_order_ascending_only_for_goos :
    (isAscending (fields goosList) = true ∧
      (fields goosList).Pairwise (fun a b => strLt a b = true)) ∧
    (isAscending (fields goarchList) = false ∧
      ¬ (fields goarchList).Pairwise (fun a b => strLt a b = true)) ∧
    ((fields goarchList).indexOf "armbe" = 4 ∧ (fields goarchList).indexOf "arm64" = 5 ∧
      strLt "arm64" "armbe" = true ∧ strLt "armbe" "arm64" = false) ∧
    (∀ t : String, binarySearch (fields goosList) t = some (decide (t ∈ fields goosList))) ∧
    ("alpha" ∈ fields goarchList ∧ binarySearch (fields goarchList) "alpha" = some false) ∧
    (isAscending (sortStrings (fields goarchList)) = true ∧
      ∀ t ∈ fields goarchList, binarySearch (sortStrings (fields goarchList)) t = some true) := by
  have hfound : ∀ t ∈ fields goosList, binarySearch (fields goosList) t = some true := by
    decide!
  refine ⟨by decide!, by decide!, by decide!, ?_, by decide!, by decide!⟩
  intro t
  by_cases ht : t ∈ fields goosList
  · rw [hfound t ht]
    simp [ht]
  · obtain ⟨b, hb⟩ := binarySearch_terminates (fields goosList) t
    cases b with
    | true => exact absurd (binarySearch_sound _ _ hb) ht
    | false =>
      rw [hb]
      simp [ht]

end Syslist
